import Mathlib

/-!
Verification of the staged-deployment pipeline core of the nebari-ioos
repository (`src/_nebari/stages/base.py`): stage ordering with
priority-based duplicate resolution (`get_available_stages`) and the
`NebariTerraformStage` lifecycle methods (`render`, `input_vars`,
`state_imports`, `deploy`, `destroy`).

The Python code is shallowly embedded: a discovered stage becomes a
`StageRef` record (its `id` field models CPython object identity, which
distinguishes distinct stage instances that happen to share `name` and
`priority`); Python's stable ascending `sorted` becomes
`List.insertionSort` over the priority order (any stable ascending sort
computes the same list); Python dict update/lookup become `dictSet` /
`dictGet` on association lists; the external infra-provisioning executor
`terraform.deploy` becomes a function parameter receiving the keyword
dictionary the source builds.  Statements of `base.py` that reference
names bound in no enclosing Python scope (and therefore raise `NameError`
at run time) are embedded via an explicit name-resolution check over the
module's actual global and local name sets.
-/

/-- Record of a discovered stage as seen by `get_available_stages`:
its `name` and `priority` attributes, plus an `id` modelling CPython
object identity (distinct discovered instances are distinct objects even
when `name` and `priority` coincide). -/
structure StageRef where
  name : String
  priority : Int
  id : Nat
  deriving DecidableEq, Repr

/-- Comparison key of the source's `sorted(stages, key=lambda s: s.priority)`:
ascending order on the `priority` attribute. -/
def stageLE (a b : StageRef) : Prop := a.priority ≤ b.priority

instance : DecidableRel stageLE := fun a b =>
  inferInstanceAs (Decidable (a.priority ≤ b.priority))

instance : IsTotal StageRef stageLE := ⟨fun a b => Int.le_total a.priority b.priority⟩

instance : IsTrans StageRef stageLE := ⟨fun _ _ _ => Int.le_trans⟩

/-- Helper characterising the dedup scan: keep each element whose `name`
attribute has not been seen yet (scanning left to right, `visited` being the
set of already-seen names).  `dedupLoop` below is the literal loop of the
source; `firstOccs` is its kept-element stream in scan order. -/
def firstOccs : List StageRef → List String → List StageRef
  | [], _ => []
  | s :: rest, visited =>
    if s.name ∈ visited then firstOccs rest visited
    else s :: firstOccs rest (s.name :: visited)

/-- Literal embedding of the source's dedup loop:

    for stage in reversed(sorted_stages):
        if stage.name in visited_stage_names:
            continue
        filtered_stages.insert(0, stage)
        visited_stage_names.add(stage.name)

`l` is the remaining part of `reversed(sorted_stages)`, `visited` the
accumulated name set, `filtered` the accumulated result (each kept stage is
prepended, mirroring `insert(0, stage)`). -/
def dedupLoop : List StageRef → List String → List StageRef → List StageRef
  | [], _, filtered => filtered
  | s :: rest, visited, filtered =>
    if s.name ∈ visited then dedupLoop rest visited filtered
    else dedupLoop rest (s.name :: visited) (s :: filtered)

/-- Embedding of `get_available_stages` (src/_nebari/stages/base.py:80-97).
`hook_results` models the collection of per-plugin stage lists returned by
`pm.hook.nebari_stage()`; `itertools.chain.from_iterable` flattens it
(`List.join`), Python's stable ascending `sorted` by priority is
`insertionSort stageLE`, and the reversed duplicate-dropping loop is
`dedupLoop` over the reversed sorted list. -/
def get_available_stages (hook_results : List (List StageRef)) : List StageRef :=
  let stages := hook_results.flatten
  let sorted_stages := List.insertionSort stageLE stages
  dedupLoop sorted_stages.reverse [] []

example :
    get_available_stages [[⟨"infra", 10, 0⟩, ⟨"infra", 5, 1⟩, ⟨"kubernetes", 20, 2⟩]] =
      [⟨"infra", 10, 0⟩, ⟨"kubernetes", 20, 2⟩] := by decide

example :
    get_available_stages [[⟨"infra", 5, 0⟩, ⟨"infra", 5, 1⟩]] = [⟨"infra", 5, 1⟩] := by decide

example : get_available_stages [] = [] := by decide

/-! ## Python dict model

Association lists with first-match lookup; `dictSet` overwrites the first
binding of the key in place and appends a fresh key at the end, exactly the
observable behaviour of CPython dict assignment `d[k] = v` (insertion order
preserved, existing key overwritten in place). -/

/-- Lookup `d[k]`, `none` when the key is absent. -/
def dictGet {V : Type} : List (String × V) → String → Option V
  | [], _ => none
  | (k0, v0) :: rest, k => if k0 = k then some v0 else dictGet rest k

/-- Assignment `d[k] = v`. -/
def dictSet {V : Type} : List (String × V) → String → V → List (String × V)
  | [], k, v => [(k, v)]
  | (k0, v0) :: rest, k, v =>
    if k0 = k then (k, v) :: rest else (k0, v0) :: dictSet rest k v

/-- Value mapping produced by one stage's apply (`Dict[str, Any]` of output
variable name to value; the value structure is irrelevant to the claims, so
values are strings). -/
abbrev TFVars := List (String × String)

/-- Accumulated Stage Outputs Mapping: `Dict[str, Dict[str, Any]]` keyed by
the convention `"stages/" + name`. -/
abbrev StageOutputs := List (String × TFVars)

/-- Destroy Status Mapping: `Dict[str, bool]` keyed the same way. -/
abbrev DestroyStatus := List (String × Bool)

/-- Value of one keyword argument in the dictionary the source passes to the
external executor via `terraform.deploy(**deploy_config)`. -/
inductive ConfigVal where
  | str : String → ConfigVal
  | vars : TFVars → ConfigVal
  | flag : Bool → ConfigVal
  | pairs : List (String × String) → ConfigVal
  deriving DecidableEq, Repr

/-- Keyword dictionary handed to the external executor. -/
abbrev TFConfig := List (String × ConfigVal)

/-- Embedding of a `NebariTerraformStage` instance: the attributes and the
two overridable derivation methods its lifecycle methods consult.  `pathlib`
joins are embedded as `/`-separated string concatenation. -/
structure NebariTerraformStage where
  name : String
  priority : Int
  output_directory : String
  input_vars : StageOutputs → TFVars
  state_imports : List (String × String)

/-- Base implementation of `NebariTerraformStage.state_imports`
(src/_nebari/stages/base.py:21-22): returns the empty list. -/
def NebariTerraformStage.state_imports_base : List (String × String) := []

/-- Base implementation of `NebariTerraformStage.input_vars`
(src/_nebari/stages/base.py:40-41): returns the empty dict. -/
def NebariTerraformStage.input_vars_base (_stage_outputs : StageOutputs) : TFVars := []

/-- Keyword dictionary `deploy_config` built by `NebariTerraformStage.deploy`
(src/_nebari/stages/base.py:45-52): always `directory` and `input_vars`; the
`terraform_import` flag and the `state_imports` list are added exactly when
`self.state_imports()` is truthy, i.e. non-empty. -/
def deploy_config (self : NebariTerraformStage) (stage_outputs : StageOutputs) : TFConfig :=
  let base : TFConfig :=
    [("directory", .str (self.output_directory ++ "/stages/" ++ self.name)),
     ("input_vars", .vars (self.input_vars stage_outputs))]
  if self.state_imports = [] then base
  else base ++ [("terraform_import", .flag true),
                ("state_imports", .pairs self.state_imports)]

/-- Embedding of the body of the `NebariTerraformStage.deploy` context manager
up to and including its `yield` (src/_nebari/stages/base.py:43-55): the
external executor `terraform.deploy` is the parameter `tf_deploy`; its result
is assigned to `stage_outputs["stages/" + self.name]`.  A successful deploy is
one in which the executor returns, which the total parameter models. -/
def NebariTerraformStage.deploy (self : NebariTerraformStage)
    (tf_deploy : TFConfig → TFVars) (stage_outputs : StageOutputs) : StageOutputs :=
  dictSet stage_outputs ("stages/" ++ self.name)
    (tf_deploy (deploy_config self stage_outputs))

/-- Keyword dictionary passed to `terraform.deploy` by the pre-yield statement
of `NebariTerraformStage.destroy` (src/_nebari/stages/base.py:64-71): the
state-only pass with init and import enabled and apply and destroy disabled. -/
def destroy_config (self : NebariTerraformStage) (stage_outputs : StageOutputs) : TFConfig :=
  [("directory", .str (self.output_directory ++ "/stages/" ++ self.name)),
   ("input_vars", .vars (self.input_vars stage_outputs)),
   ("terraform_init", .flag true),
   ("terraform_import", .flag true),
   ("terraform_apply", .flag false),
   ("terraform_destroy", .flag false)]

/-- Embedding of `NebariTerraformStage.destroy` up to and including its
`yield` (src/_nebari/stages/base.py:60-72): the state-only executor result is
assigned to `stage_outputs["stages/" + self.name]`. -/
def destroy_pre_yield (self : NebariTerraformStage)
    (tf_deploy : TFConfig → TFVars) (stage_outputs : StageOutputs) : StageOutputs :=
  dictSet stage_outputs ("stages/" ++ self.name)
    (tf_deploy (destroy_config self stage_outputs))

/-! ## Python name resolution in base.py

Several statements of `base.py` reference plain names that are bound in no
enclosing scope, so CPython raises `NameError` when they execute.  The
embedding makes this explicit: the sets of names actually bound at module
level and in each function's local scope are transcribed from the source, and
a statement is embedded as the `NameError` carrying the first referenced name
(in CPython left-to-right evaluation order, callee before arguments, dict key
before dict value) that resolves in none of local scope, module globals and
builtins. -/

/-- Names bound at module level in src/_nebari/stages/base.py: the four
plain imports, the five from-imports, the class and the function the module
defines. -/
def base_module_globals : List String :=
  ["contextlib", "inspect", "itertools", "pathlib",
   "Any", "Dict", "List", "Tuple",
   "terraform", "NebariTerraformState", "NebariStage",
   "NebariTerraformStage", "get_available_stages"]

/-- Builtins the module's functions reference. -/
def python_builtins : List String := ["str", "open", "set", "sorted", "reversed"]

/-- True when the plain name `n` resolves: local scope, else module globals,
else builtins. -/
def resolves (local_names : List String) (n : String) : Bool :=
  local_names.contains n || base_module_globals.contains n || python_builtins.contains n

/-- Local names of `NebariTerraformStage.render`: its parameter and the
names its statements assign (`contents` and the loop targets).  Note that
`stage_prefix`, `os` and `filenames` are not among them: `render` never
assigns them, so CPython treats them as global references. -/
def render_local_names : List String :=
  ["self", "contents", "root", "dirs", "files", "filename"]

/-- Plain non-local names `NebariTerraformStage.render` references, in first
evaluation order: the dict key evaluates `str` then the bare `stage_prefix`;
the dict value evaluates `terraform` then (inside `self.tf_objects()`) the
bare `config`; the loop evaluates `os`, `filenames` and `open`. -/
def render_referenced_names : List String :=
  ["str", "stage_prefix", "terraform", "config", "os", "filenames", "open"]

/-- Embedding of `NebariTerraformStage.render` (src/_nebari/stages/base.py:27-38).
`tf_render` stands for the text `terraform.tf_render_objects(self.tf_objects())`
would produce and `template_files` for the template-directory files the
`os.walk` loop would copy verbatim; the returned dict in the resolving case
holds the generated definition at
`<output_directory>/stages/<name>/_nebari.tf.json` plus those files.  The
body first evaluates each referenced plain name, and raises `NameError` at
the first that does not resolve. -/
def NebariTerraformStage.render (self : NebariTerraformStage)
    (tf_render : String) (template_files : List (String × String)) :
    Except String (List (String × String)) :=
  match render_referenced_names.find? (fun n => !(resolves render_local_names n)) with
  | some n => .error ("NameError: " ++ n)
  | none =>
    .ok ((self.output_directory ++ "/stages/" ++ self.name ++ "/_nebari.tf.json",
          tf_render) :: template_files)

/-- Local names of `NebariTerraformStage.destroy`: exactly its parameters
(subscript assignments bind no name).  `output_directory` and `stage_prefix`
are not among them. -/
def destroy_local_names : List String := ["self", "stage_outputs", "status"]

/-- Plain non-local names the post-yield statement of destroy references, in
first evaluation order: the callee `_terraform_destroy` is evaluated before
its arguments, which reference `str`, `output_directory` and `stage_prefix`. -/
def destroy_post_referenced_names : List String :=
  ["_terraform_destroy", "str", "output_directory", "stage_prefix"]

/-- Embedding of the part of `NebariTerraformStage.destroy` after its `yield`
(src/_nebari/stages/base.py:72-77): the statement
`status["stages/" + self.name] = _terraform_destroy(directory=str(output_directory / stage_prefix), input_vars=self.input_vars(stage_outputs), ignore_errors=True)`.
Each referenced plain name is resolved first; in the (here unreachable)
resolving case the destroy executor `tf_destroy` would be called with
`ignore_errors=True` on the deploy-time directory convention — the intent
the specification states — and its boolean result recorded in `status`. -/
def destroy_post_yield (self : NebariTerraformStage)
    (tf_destroy : TFConfig → Bool) (stage_outputs : StageOutputs)
    (status : DestroyStatus) : Except String DestroyStatus :=
  match destroy_post_referenced_names.find? (fun n => !(resolves destroy_local_names n)) with
  | some n => .error ("NameError: " ++ n)
  | none =>
    .ok (dictSet status ("stages/" ++ self.name)
      (tf_destroy
        [("directory", .str (self.output_directory ++ "/stages/" ++ self.name)),
         ("input_vars", .vars (self.input_vars stage_outputs)),
         ("ignore_errors", .flag true)]))

example :
    NebariTerraformStage.render ⟨"infra", 10, "/out", fun _ => [], []⟩ "tf" [] =
      Except.error ("NameError: stage_prefix") := rfl

example :
    destroy_post_yield ⟨"infra", 10, "/out", fun _ => [], []⟩ (fun _ => true) [] [] =
      Except.error ("NameError: _terraform_destroy") := rfl


/-! ## Properties of the dedup scan -/

section OrderingLemmas
open List

/-- Running the source's dedup loop equals reversing the kept-element stream
onto the accumulator. -/
theorem dedupLoop_eq :
    ∀ (l : List StageRef) (v : List String) (acc : List StageRef),
      dedupLoop l v acc = (firstOccs l v).reverse ++ acc := by
  intro l
  induction l with
  | nil => intro v acc; simp [dedupLoop, firstOccs]
  | cons a rest ih =>
    intro v acc
    by_cases h : a.name ∈ v
    · simp [dedupLoop, firstOccs, h, ih]
    · simp [dedupLoop, firstOccs, h, ih]

/-- Closed form of `get_available_stages`: the kept-element stream of the
reversed sorted list, reversed back. -/
theorem get_available_stages_eq (hook_results : List (List StageRef)) :
    get_available_stages hook_results =
      (firstOccs (List.insertionSort stageLE hook_results.flatten).reverse []).reverse := by
  simp [get_available_stages, dedupLoop_eq]

/-- The kept-element stream is a sublist of the scanned list. -/
theorem firstOccs_sublist : ∀ (l : List StageRef) (v : List String), firstOccs l v <+ l := by
  intro l
  induction l with
  | nil => intro v; simp [firstOccs]
  | cons a rest ih =>
    intro v
    by_cases h : a.name ∈ v
    · rw [firstOccs, if_pos h]
      exact (ih v).trans (List.sublist_cons_self a rest)
    · rw [firstOccs, if_neg h]
      exact (ih _).cons₂ a

/-- Every kept stage has a name outside the initial visited set. -/
theorem firstOccs_name_not_visited :
    ∀ (l : List StageRef) (v : List String) (s : StageRef),
      s ∈ firstOccs l v → s.name ∉ v := by
  intro l
  induction l with
  | nil => intro v s h; simp [firstOccs] at h
  | cons a rest ih =>
    intro v s hs
    by_cases h : a.name ∈ v
    · rw [firstOccs, if_pos h] at hs
      exact ih v s hs
    · rw [firstOccs, if_neg h] at hs
      rcases List.mem_cons.mp hs with rfl | hs
      · exact h
      · intro hv
        exact ih _ s hs (List.mem_cons_of_mem _ hv)

/-- Kept stages bear pairwise-distinct names. -/
theorem firstOccs_names_nodup :
    ∀ (l : List StageRef) (v : List String),
      ((firstOccs l v).map StageRef.name).Nodup := by
  intro l
  induction l with
  | nil => intro v; simp [firstOccs]
  | cons a rest ih =>
    intro v
    by_cases h : a.name ∈ v
    · rw [firstOccs, if_pos h]; exact ih v
    · rw [firstOccs, if_neg h]
      refine List.nodup_cons.mpr ⟨?_, ih _⟩
      intro hmem
      rcases List.mem_map.mp hmem with ⟨s, hs, hname⟩
      exact firstOccs_name_not_visited _ _ s hs (hname ▸ List.mem_cons_self _ _)

/-- Scanning a list sorted descending by priority, each kept stage carries
the maximal priority among scanned stages of its name. -/
theorem firstOccs_max_priority :
    ∀ (l : List StageRef) (v : List String),
      l.Pairwise (fun a b => stageLE b a) →
      ∀ s ∈ firstOccs l v, ∀ t ∈ l, t.name = s.name → t.priority ≤ s.priority := by
  intro l
  induction l with
  | nil => intro v _ s hs; simp [firstOccs] at hs
  | cons a rest ih =>
    intro v hp s hs t ht hname
    rcases List.pairwise_cons.mp hp with ⟨ha, hrest⟩
    by_cases h : a.name ∈ v
    · rw [firstOccs, if_pos h] at hs
      rcases List.mem_cons.mp ht with rfl | ht
      · exact absurd (hname ▸ h) (firstOccs_name_not_visited _ _ s hs)
      · exact ih v hrest s hs t ht hname
    · rw [firstOccs, if_neg h] at hs
      rcases List.mem_cons.mp hs with rfl | hs
      · rcases List.mem_cons.mp ht with rfl | ht
        · exact le_refl _
        · exact ha t ht
      · have hsname : s.name ≠ a.name := by
          intro he
          exact firstOccs_name_not_visited _ _ s hs (he ▸ List.mem_cons_self _ _)
        rcases List.mem_cons.mp ht with rfl | ht
        · exact absurd hname.symm hsname
        · exact ih _ hrest s hs t ht hname

/-- Every scanned name outside the initial visited set is represented among
the kept stages. -/
theorem firstOccs_complete :
    ∀ (l : List StageRef) (v : List String) (t : StageRef), t ∈ l → t.name ∉ v →
      ∃ s, s ∈ firstOccs l v ∧ s.name = t.name := by
  intro l
  induction l with
  | nil => intro v t ht; simp at ht
  | cons a rest ih =>
    intro v t ht hv
    by_cases h : a.name ∈ v
    · rw [firstOccs, if_pos h]
      rcases List.mem_cons.mp ht with rfl | ht
      · exact absurd h hv
      · exact ih v t ht hv
    · rw [firstOccs, if_neg h]
      by_cases hn : t.name = a.name
      · exact ⟨a, List.mem_cons_self _ _, hn.symm⟩
      · rcases List.mem_cons.mp ht with rfl | ht
        · exact absurd rfl hn
        · rcases ih (a.name :: v) t ht (by
            intro hmem
            rcases List.mem_cons.mp hmem with he | he
            · exact hn he
            · exact hv he) with ⟨s, hs, hname⟩
          exact ⟨s, List.mem_cons_of_mem _ hs, hname⟩

/-- In a duplicate-free scan, a stage preceded by a same-named stage is
dropped. -/
theorem firstOccs_drops_dup :
    ∀ (l : List StageRef) (v : List String) (x y : StageRef),
      l.Nodup → [x, y] <+ l → x.name = y.name → y ∉ firstOccs l v := by
  intro l
  induction l with
  | nil => intro v x y _ hsub; simp at hsub
  | cons a rest ih =>
    intro v x y hnd hsub hname hy
    rcases List.nodup_cons.mp hnd with ⟨hna, hrest⟩
    by_cases h : a.name ∈ v
    · rw [firstOccs, if_pos h] at hy
      cases hsub with
      | cons _ hsub' => exact ih v x y hrest hsub' hname hy
      | cons₂ _ hsub' =>
        exact firstOccs_name_not_visited _ _ y hy (hname ▸ h)
    · rw [firstOccs, if_neg h] at hy
      cases hsub with
      | cons _ hsub' =>
        have hyrest : y ∈ rest := hsub'.subset (by simp)
        rcases List.mem_cons.mp hy with rfl | hy
        · exact hna hyrest
        · exact ih _ x y hrest hsub' hname hy
      | cons₂ _ hsub' =>
        have hyrest : y ∈ rest := hsub'.subset (by simp)
        rcases List.mem_cons.mp hy with rfl | hy
        · exact hna hyrest
        · exact firstOccs_name_not_visited _ _ y hy
            (hname ▸ List.mem_cons_self _ _)

end OrderingLemmas

/-! ## Stability of the stable sort, expressed through priority classes -/

section StabilityLemmas
open List

/-- Membership test for one priority class. -/
def prioEq (k : Int) (s : StageRef) : Bool := decide (s.priority = k)

/-- Inserting a stage of the given priority prepends it to the class. -/
theorem filter_orderedInsert_eq (k : Int) (a : StageRef) (ha : a.priority = k) :
    ∀ l : List StageRef,
      (List.orderedInsert stageLE a l).filter (prioEq k) = a :: l.filter (prioEq k) := by
  intro l
  induction l with
  | nil => simp [List.orderedInsert, prioEq, ha]
  | cons b rest ih =>
    by_cases h : stageLE a b
    · rw [List.orderedInsert, if_pos h, List.filter_cons_of_pos (by simp [prioEq, ha])]
    · rw [List.orderedInsert, if_neg h]
      have hb : ¬ (prioEq k b = true) := by
        simp only [prioEq, decide_eq_true_eq]
        have : b.priority < a.priority := lt_of_not_le h
        omega
      rw [List.filter_cons_of_neg hb, ih, List.filter_cons_of_neg hb]

/-- Inserting a stage of another priority leaves the class unchanged. -/
theorem filter_orderedInsert_ne (k : Int) (a : StageRef) (ha : ¬ a.priority = k) :
    ∀ l : List StageRef,
      (List.orderedInsert stageLE a l).filter (prioEq k) = l.filter (prioEq k) := by
  intro l
  have hpa : ¬ (prioEq k a = true) := by simp [prioEq, ha]
  induction l with
  | nil => simp [List.orderedInsert, List.filter_cons_of_neg hpa]
  | cons b rest ih =>
    by_cases h : stageLE a b
    · rw [List.orderedInsert, if_pos h, List.filter_cons_of_neg hpa]
    · rw [List.orderedInsert, if_neg h]
      by_cases hb : prioEq k b = true
      · rw [List.filter_cons_of_pos hb, ih, List.filter_cons_of_pos hb]
      · rw [List.filter_cons_of_neg hb, ih, List.filter_cons_of_neg hb]

/-- The stable sort permutes stages only across, never inside, priority
classes: filtering one priority out of the sorted list returns that class in
discovery order. -/
theorem filter_insertionSort (k : Int) :
    ∀ l : List StageRef,
      (List.insertionSort stageLE l).filter (prioEq k) = l.filter (prioEq k) := by
  intro l
  induction l with
  | nil => rfl
  | cons a rest ih =>
    by_cases ha : a.priority = k
    · rw [List.insertionSort, filter_orderedInsert_eq k a ha, ih,
        List.filter_cons_of_pos (by simp [prioEq, ha])]
    · rw [List.insertionSort, filter_orderedInsert_ne k a ha, ih,
        List.filter_cons_of_neg (by simp [prioEq, ha])]

/-- A same-priority pair appearing in the sorted list appears, in the same
relative order, in the discovery list. -/
theorem pair_sublist_of_sorted {l : List StageRef} {a b : StageRef}
    (hab : a.priority = b.priority)
    (h : [a, b] <+ List.insertionSort stageLE l) : [a, b] <+ l := by
  have hfa : prioEq a.priority a = true := by simp [prioEq]
  have hfb : prioEq a.priority b = true := by simp [prioEq, hab.symm]
  have hpair : ([a, b].filter (prioEq a.priority)) = [a, b] := by
    simp [List.filter, hfa, hfb]
  have h1 : [a, b] <+ (List.insertionSort stageLE l).filter (prioEq a.priority) := by
    rw [← hpair]
    exact h.filter (prioEq a.priority)
  rw [filter_insertionSort] at h1
  exact h1.trans (List.filter_sublist l)

end StabilityLemmas

/-! ## Claims about stage ordering -/

section OrderingClaims
open List

/-- C1: for every discovered stage sequence, `get_available_stages` keeps
exactly one stage per unique name — names in the result are pairwise
distinct, every result stage is a discovered stage, every discovered name is
represented — and the kept stage of each name carries the highest priority
among discovered stages of that name; moreover the input
`[infra(10), infra(5), kubernetes(20)]` yields exactly
`[infra(10), kubernetes(20)]`. -/
theorem stage_ordering_unique_highest (hook_results : List (List StageRef)) :
    (((get_available_stages hook_results).map StageRef.name).Nodup ∧
      (∀ s, s ∈ get_available_stages hook_results →
        s ∈ hook_results.flatten ∧
        ∀ t, t ∈ hook_results.flatten → t.name = s.name → t.priority ≤ s.priority) ∧
      (∀ t, t ∈ hook_results.flatten →
        ∃ s, s ∈ get_available_stages hook_results ∧ s.name = t.name)) ∧
    get_available_stages [[⟨"infra", 10, 0⟩, ⟨"infra", 5, 1⟩, ⟨"kubernetes", 20, 2⟩]] =
      [⟨"infra", 10, 0⟩, ⟨"kubernetes", 20, 2⟩] := by
  have heq := get_available_stages_eq hook_results
  have hperm := List.perm_insertionSort stageLE hook_results.flatten
  have hrev : (List.insertionSort stageLE hook_results.flatten).reverse.Pairwise
      (fun a b => stageLE b a) :=
    List.pairwise_reverse.mpr (List.sorted_insertionSort stageLE hook_results.flatten)
  refine ⟨⟨?_, ?_, ?_⟩, by decide⟩
  · rw [heq, List.map_reverse, List.nodup_reverse]
    exact firstOccs_names_nodup _ _
  · intro s hs
    rw [heq, List.mem_reverse] at hs
    refine ⟨?_, ?_⟩
    · have hmem : s ∈ (List.insertionSort stageLE hook_results.flatten).reverse :=
        (firstOccs_sublist _ _).subset hs
      rw [List.mem_reverse] at hmem
      exact hperm.subset hmem
    · intro t ht hname
      have ht' : t ∈ (List.insertionSort stageLE hook_results.flatten).reverse := by
        rw [List.mem_reverse]
        exact hperm.symm.subset ht
      exact firstOccs_max_priority _ [] hrev s hs t ht' hname
  · intro t ht
    have ht' : t ∈ (List.insertionSort stageLE hook_results.flatten).reverse := by
      rw [List.mem_reverse]
      exact hperm.symm.subset ht
    rcases firstOccs_complete _ [] t ht' (by simp) with ⟨s, hs, hname⟩
    refine ⟨s, ?_, hname⟩
    rw [heq, List.mem_reverse]
    exact hs

/-- Witness for C1 at the spec's example input: the discarded duplicate
`infra(5)` has no higher priority than the kept `infra(10)`. -/
theorem stage_ordering_unique_highest_witness :
    (⟨"infra", 5, 1⟩ : StageRef).priority ≤ (⟨"infra", 10, 0⟩ : StageRef).priority :=
  ((stage_ordering_unique_highest
      [[⟨"infra", 10, 0⟩, ⟨"infra", 5, 1⟩, ⟨"kubernetes", 20, 2⟩]]).1.2.1
    ⟨"infra", 10, 0⟩ (by decide)).2 ⟨"infra", 5, 1⟩ (by decide) (by decide)

/-- C2: the list `get_available_stages` returns is sorted ascending by
priority, and the underlying sort is stable: a same-priority pair retained in
some relative order appeared in that relative order in the discovery
sequence. -/
theorem stage_ordering_sorted_and_stable (hook_results : List (List StageRef)) :
    (get_available_stages hook_results).Pairwise stageLE ∧
    ∀ a b : StageRef, a.priority = b.priority →
      [a, b] <+ get_available_stages hook_results → [a, b] <+ hook_results.flatten := by
  have heq := get_available_stages_eq hook_results
  constructor
  · rw [heq, List.pairwise_reverse]
    exact (List.pairwise_reverse.mpr
      (List.sorted_insertionSort stageLE hook_results.flatten)).sublist
      (firstOccs_sublist _ _)
  · intro a b hab hsub
    rw [heq] at hsub
    have h1 : [b, a] <+
        firstOccs (List.insertionSort stageLE hook_results.flatten).reverse [] := by
      have h := hsub.reverse
      simpa using h
    have h2 : [b, a] <+ (List.insertionSort stageLE hook_results.flatten).reverse :=
      h1.trans (firstOccs_sublist _ _)
    have h3 : [a, b] <+ List.insertionSort stageLE hook_results.flatten := by
      have h := h2.reverse
      simpa using h
    exact pair_sublist_of_sorted hab h3

/-- Witness for C2: two distinct equal-priority stages discovered in order
`a, b` are retained in order `a, b`, and the theorem recovers their
discovery order. -/
theorem stage_ordering_sorted_and_stable_witness :
    [(⟨"a", 1, 0⟩ : StageRef), ⟨"b", 1, 1⟩] <+ [[(⟨"a", 1, 0⟩ : StageRef), ⟨"b", 1, 1⟩]].flatten :=
  (stage_ordering_sorted_and_stable [[⟨"a", 1, 0⟩, ⟨"b", 1, 1⟩]]).2
    ⟨"a", 1, 0⟩ ⟨"b", 1, 1⟩ (by decide) (by decide)

/-- C9: when two distinct discovered stages share name and priority, the
earlier-discovered one is discarded by `get_available_stages`; at the
concrete two-stage input the later-discovered instance is the one retained. -/
theorem stage_ordering_equal_priority_keeps_later
    (hook_results : List (List StageRef)) (a b : StageRef)
    (hnd : hook_results.flatten.Nodup) (hname : a.name = b.name)
    (hprio : a.priority = b.priority) (hsub : [a, b] <+ hook_results.flatten) :
    a ∉ get_available_stages hook_results ∧
    get_available_stages [[⟨"infra", 5, 0⟩, ⟨"infra", 5, 1⟩]] = [⟨"infra", 5, 1⟩] := by
  refine ⟨?_, by decide⟩
  have hsorted : [a, b] <+ List.insertionSort stageLE hook_results.flatten :=
    List.pair_sublist_insertionSort (le_of_eq hprio) hsub
  have hrevsub : [b, a] <+ (List.insertionSort stageLE hook_results.flatten).reverse := by
    have h := hsorted.reverse
    simpa using h
  have hndrev : (List.insertionSort stageLE hook_results.flatten).reverse.Nodup := by
    rw [List.nodup_reverse]
    exact ((List.perm_insertionSort stageLE _).nodup_iff).mpr hnd
  intro hmem
  rw [get_available_stages_eq, List.mem_reverse] at hmem
  exact firstOccs_drops_dup _ [] b a hndrev hrevsub hname.symm hmem

/-- Witness for C9 at the two-stage equal-priority input: the
earlier-discovered `infra` instance is absent from the result. -/
theorem stage_ordering_equal_priority_keeps_later_witness :
    (⟨"infra", 5, 0⟩ : StageRef) ∉ get_available_stages [[⟨"infra", 5, 0⟩, ⟨"infra", 5, 1⟩]] :=
  (stage_ordering_equal_priority_keeps_later [[⟨"infra", 5, 0⟩, ⟨"infra", 5, 1⟩]]
    ⟨"infra", 5, 0⟩ ⟨"infra", 5, 1⟩ (by decide) (by decide) (by decide) (by decide)).1

end OrderingClaims

/-! ## Dict lemmas and claims about the lifecycle methods -/

/-- Assignment then lookup of the same key returns the assigned value. -/
theorem dictGet_dictSet_same {V : Type} (d : List (String × V)) (k : String) (v : V) :
    dictGet (dictSet d k v) k = some v := by
  induction d with
  | nil => simp [dictSet, dictGet]
  | cons p rest ih =>
    obtain ⟨k0, v0⟩ := p
    by_cases h : k0 = k
    · simp [dictSet, dictGet, h]
    · simp [dictSet, dictGet, h, ih]

/-- Assignment leaves lookups of every other key unchanged. -/
theorem dictGet_dictSet_other {V : Type} (d : List (String × V)) (k k' : String) (v : V)
    (hne : k' ≠ k) : dictGet (dictSet d k v) k' = dictGet d k' := by
  induction d with
  | nil => simp [dictSet, dictGet, Ne.symm hne]
  | cons p rest ih =>
    obtain ⟨k0, v0⟩ := p
    by_cases h : k0 = k
    · subst h
      simp [dictSet, dictGet, Ne.symm hne]
    · simp [dictSet, dictGet, h, ih]

/-- C3: a successful `NebariTerraformStage.deploy` records the executor's
returned output mapping under this stage's own key `"stages/<name>"`, and the
entry under every other key is exactly what it was before. -/
theorem deploy_writes_own_key_only (self : NebariTerraformStage)
    (tf_deploy : TFConfig → TFVars) (stage_outputs : StageOutputs) :
    dictGet (self.deploy tf_deploy stage_outputs) ("stages/" ++ self.name) =
      some (tf_deploy (deploy_config self stage_outputs)) ∧
    ∀ k, k ≠ "stages/" ++ self.name →
      dictGet (self.deploy tf_deploy stage_outputs) k = dictGet stage_outputs k := by
  exact ⟨dictGet_dictSet_same _ _ _, fun k hk => dictGet_dictSet_other _ _ _ _ hk⟩

/-- Witness for C3: deploying the `infra` stage leaves the pre-existing
entry of another stage untouched. -/
theorem deploy_writes_own_key_only_witness :
    dictGet
      (NebariTerraformStage.deploy
        ⟨"infra", 10, "/out", NebariTerraformStage.input_vars_base, []⟩
        (fun _ => [("vpc", "vpc-1")]) [("stages/other", [("y", "2")])])
      ("stages/other") =
    dictGet [("stages/other", [("y", "2")])] ("stages/other") :=
  (deploy_writes_own_key_only
    ⟨"infra", 10, "/out", NebariTerraformStage.input_vars_base, []⟩
    (fun _ => [("vpc", "vpc-1")]) [("stages/other", [("y", "2")])]).2
    ("stages/other") (by decide)

/-- C7: the keyword dictionary deploy hands to the executor requests the
import-before-apply mode exactly when `state_imports()` is non-empty, in
which case it passes exactly the returned pair list; when `state_imports()`
is empty neither keyword is present. -/
theorem deploy_config_import_iff (self : NebariTerraformStage)
    (stage_outputs : StageOutputs) :
    (self.state_imports = [] →
      dictGet (deploy_config self stage_outputs) "terraform_import" = none ∧
      dictGet (deploy_config self stage_outputs) "state_imports" = none) ∧
    (self.state_imports ≠ [] →
      dictGet (deploy_config self stage_outputs) "terraform_import" =
        some (ConfigVal.flag true) ∧
      dictGet (deploy_config self stage_outputs) "state_imports" =
        some (ConfigVal.pairs self.state_imports)) := by
  constructor
  · intro h
    constructor <;> simp [deploy_config, dictGet, h]
  · intro h
    constructor <;> simp [deploy_config, dictGet, h]

/-- Witness for C7: with one pending import the executor receives the flag
and exactly that pair list; the base empty default requests nothing. -/
theorem deploy_config_import_iff_witness :
    dictGet
      (deploy_config ⟨"infra", 10, "/out", NebariTerraformStage.input_vars_base,
        [("aws_vpc.main", "vpc-1")]⟩ [])
      "state_imports" = some (ConfigVal.pairs [("aws_vpc.main", "vpc-1")]) ∧
    dictGet
      (deploy_config ⟨"infra", 10, "/out", NebariTerraformStage.input_vars_base,
        NebariTerraformStage.state_imports_base⟩ [])
      "terraform_import" = none :=
  ⟨((deploy_config_import_iff ⟨"infra", 10, "/out", NebariTerraformStage.input_vars_base,
      [("aws_vpc.main", "vpc-1")]⟩ []).2 (by decide)).2,
   ((deploy_config_import_iff ⟨"infra", 10, "/out", NebariTerraformStage.input_vars_base,
      NebariTerraformStage.state_imports_base⟩ []).1 (by decide)).1⟩

/-- C8: the base `input_vars` returns the empty mapping for every accumulated
Stage Outputs Mapping, whatever keys are present or added. -/
theorem input_vars_base_always_empty (stage_outputs : StageOutputs)
    (k : String) (v : TFVars) :
    NebariTerraformStage.input_vars_base stage_outputs = [] ∧
    NebariTerraformStage.input_vars_base (dictSet stage_outputs k v) = [] :=
  ⟨rfl, rfl⟩

/-- C10: before yielding, destroy writes the state-only pass result into the
Stage Outputs Mapping under this stage's own key — overwriting whatever a
prior deploy recorded there — and leaves every other key of the mapping
unchanged. -/
theorem destroy_pre_yield_writes_own_key (self : NebariTerraformStage)
    (tf_deploy : TFConfig → TFVars) (stage_outputs : StageOutputs) :
    dictGet (destroy_pre_yield self tf_deploy stage_outputs) ("stages/" ++ self.name) =
      some (tf_deploy (destroy_config self stage_outputs)) ∧
    ∀ k, k ≠ "stages/" ++ self.name →
      dictGet (destroy_pre_yield self tf_deploy stage_outputs) k =
        dictGet stage_outputs k := by
  exact ⟨dictGet_dictSet_same _ _ _, fun k hk => dictGet_dictSet_other _ _ _ _ hk⟩

/-- Witness for C10: with a prior deploy entry recorded under the stage's own
key, the pre-yield pass overwrites it with the state-only result while the
neighbouring entry is untouched. -/
theorem destroy_pre_yield_writes_own_key_witness :
    dictGet
      (destroy_pre_yield ⟨"infra", 10, "/out", NebariTerraformStage.input_vars_base, []⟩
        (fun _ => [("fresh", "1")])
        [("stages/infra", [("old", "0")]), ("stages/other", [("y", "2")])])
      ("stages/other") =
    dictGet [("stages/infra", [("old", "0")]), ("stages/other", [("y", "2")])]
      ("stages/other") :=
  (destroy_pre_yield_writes_own_key
    ⟨"infra", 10, "/out", NebariTerraformStage.input_vars_base, []⟩
    (fun _ => [("fresh", "1")])
    [("stages/infra", [("old", "0")]), ("stages/other", [("y", "2")])]).2
    ("stages/other") (by decide)

/-- C4 (code-bug evidence): the post-yield statement of destroy evaluates the
bare name `_terraform_destroy`, which resolves in no enclosing scope, so for
every stage the statement raises `NameError` to the caller instead of calling
the executor and recording a success flag in `status`. -/
theorem destroy_post_yield_raises_name_error (self : NebariTerraformStage)
    (tf_destroy : TFConfig → Bool) (stage_outputs : StageOutputs)
    (status : DestroyStatus) :
    destroy_post_yield self tf_destroy stage_outputs status =
      Except.error ("NameError: _terraform_destroy") := rfl

/-- C5 (code-bug evidence): at a concrete stage, render raises `NameError`
on the bare name `stage_prefix` instead of returning a Rendered File Set
containing the generated `_nebari.tf.json` entry. -/
theorem render_raises_name_error :
    NebariTerraformStage.render
      ⟨"infra", 10, "/out", NebariTerraformStage.input_vars_base, []⟩
      "tfjson" [("/out/stages/infra/main.tf", "tpl")] =
      Except.error ("NameError: stage_prefix") := rfl

/-- C6 (code-bug evidence): no render call returns a Rendered File Set at
all — for every stage and every template content the body raises `NameError`
on its first expression, so no two calls can be compared for idempotence. -/
theorem render_never_returns (self : NebariTerraformStage) (tf_render : String)
    (template_files : List (String × String)) :
    NebariTerraformStage.render self tf_render template_files =
      Except.error ("NameError: stage_prefix") := rfl
